import Mathlib

/-!
# Verification of the PANDA core (netZooPy `panda.py`)

Shallow embedding of the core numeric routines of `src/netZooPy/panda/panda.py`:
the similarity transform `t_function`, the diagonal regularizer
`update_diagonal`, the network normalizer `_normalize_network`, the
convergence loop `panda_loop`, the result export, the PPI-matrix
construction and the correlation-matrix NaN fixup from `__init__`.

Modelling conventions:
* NumPy float64 matrices are embedded as matrices over `ℝ` where the code
  never relies on NaN, and as matrices over `Option ℝ` (with `none` playing
  the role of IEEE NaN) where NaN is used as a signal (`_normalize_network`,
  `update_diagonal`, the `np.corrcoef` fixup).  NaN arises in the source
  only from `0/0` (z-scoring a zero-variance slice), from `np.nanstd` of an
  all-NaN slice, and from explicit `np.fill_diagonal(..., np.nan)`; these
  are the cases the `Option` embedding covers.
* In-place NumPy mutation is embedded as pure state passing; the `while`
  loop of `panda_loop` is embedded as a fuel-indexed runner returning
  `Option` (`none` = fuel exhausted before the convergence test passed).
-/

open Matrix BigOperators

noncomputable section

/-- Mean over all entries of a matrix, `np.ndarray.mean()`: sum of the
entries divided by the number of entries. -/
def matMean {m n : ℕ} (M : Matrix (Fin m) (Fin n) ℝ) : ℝ :=
  (∑ i, ∑ j, M i j) / ((m * n : ℕ) : ℝ)

/-- `np.square(x).sum(axis=1)`: sum of squares of row `i` of `x`. -/
def rowSumSq {m k : ℕ} (x : Matrix (Fin m) (Fin k) ℝ) (i : Fin m) : ℝ :=
  ∑ l, (x i l) ^ 2

/-- `np.square(y).sum(axis=0)`: sum of squares of column `j` of `y`. -/
def colSumSq {k n : ℕ} (y : Matrix (Fin k) (Fin n) ℝ) (j : Fin n) : ℝ :=
  ∑ l, (y l j) ^ 2

/-- One-argument form of `t_function` (panda.py lines 204–207):
`a_matrix = np.dot(x, x.T)` followed by the in-place rescaling
`a_matrix /= np.sqrt(s + s.reshape(-1, 1) - np.abs(a_matrix))` where
`s = np.square(x).sum(axis=1)`.  The broadcast `s + s.reshape(-1,1)` has
entry `(i, j)` equal to `s j + s i`, and the `np.abs` is taken of the raw
dot-product matrix, before any rescaling. -/
def t_function1 {m k : ℕ} (x : Matrix (Fin m) (Fin k) ℝ) :
    Matrix (Fin m) (Fin m) ℝ :=
  let a := x * xᵀ
  fun i j => a i j / Real.sqrt (rowSumSq x j + rowSumSq x i - |a i j|)

/-- Two-argument form of `t_function` (panda.py lines 208–210):
`a_matrix = np.dot(x, y)` rescaled in place by
`np.sqrt(np.square(y).sum(axis=0) + np.square(x).sum(axis=1).reshape(-1,1)
- np.abs(a_matrix))`. -/
def t_function2 {m k n : ℕ} (x : Matrix (Fin m) (Fin k) ℝ)
    (y : Matrix (Fin k) (Fin n) ℝ) : Matrix (Fin m) (Fin n) ℝ :=
  let a := x * y
  fun i j => a i j / Real.sqrt (colSumSq y j + rowSumSq x i - |a i j|)

/-- `np.nanstd(v)` (ddof = 0) over a vector with NaNs embedded as `none`:
the population standard deviation of the non-NaN entries, and `none` (NaN)
when every entry is NaN (NumPy: std of an empty slice is NaN). -/
def nanstd {n : ℕ} (v : Fin n → Option ℝ) : Option ℝ :=
  let s := Finset.univ.filter (fun j => (v j).isSome)
  if s.card = 0 then none
  else
    let μ := (∑ j in s, (v j).getD 0) / (s.card : ℝ)
    some (Real.sqrt ((∑ j in s, ((v j).getD 0 - μ) ^ 2) / (s.card : ℝ)))

/-- `update_diagonal` (panda.py lines 213–218), embedded purely over
NaN-extended reals: set the diagonal to NaN, take `np.nanstd` of every row,
and write `diagonal_std * num * math.exp(2 * alpha * step)` back onto the
diagonal.  Off-diagonal entries are returned unchanged. -/
def update_diagonal {n : ℕ} (M : Matrix (Fin n) (Fin n) (Option ℝ))
    (num : ℕ) (alpha : ℝ) (step : ℕ) : Matrix (Fin n) (Fin n) (Option ℝ) :=
  let M1 : Matrix (Fin n) (Fin n) (Option ℝ) :=
    fun i j => if i = j then none else M i j
  let diagonal_std := fun i => nanstd (M1 i)
  let diagonal_fill := fun i =>
    (diagonal_std i).map (fun sd => sd * (num : ℝ) * Real.exp (2 * alpha * (step : ℕ)))
  fun i j => if i = j then diagonal_fill i else M1 i j

/-- `update_diagonal` specialized to NaN-free real matrices (the form used
inside the embedded `panda_loop`, whose matrices are carried over `ℝ`):
it coincides with `update_diagonal` entrywise, reading `none` as the
(never-reached, for `n ≥ 2`) default `0`. -/
def update_diagonal_r {n : ℕ} (M : Matrix (Fin n) (Fin n) ℝ)
    (num : ℕ) (alpha : ℝ) (step : ℕ) : Matrix (Fin n) (Fin n) ℝ :=
  fun i j => (update_diagonal (fun a b => some (M a b)) num alpha step i j).getD 0

/-- Theorem for claim C3 helper: dot product of rows `i` and `j` of `x`. -/
def rowDot {m k : ℕ} (x : Matrix (Fin m) (Fin k) ℝ) (i j : Fin m) : ℝ :=
  ∑ l, x i l * x j l

/-- `X · Y` entry as an explicit sum. -/
def mulEntry {m k n : ℕ} (x : Matrix (Fin m) (Fin k) ℝ)
    (y : Matrix (Fin k) (Fin n) ℝ) (i : Fin m) (j : Fin n) : ℝ :=
  ∑ l, x i l * y l j

/-- C3: the one-argument `t_function` returns the matrix whose `(i,j)`
entry is the dot product of rows `i` and `j` of `x`, divided by
`sqrt (s i + s j - |dot|)` with `s` the row sums of squares and the
absolute value taken of the raw dot product; the two-argument form returns
`X·Y` rescaled by `sqrt (colSumSq y j + rowSumSq x i - |(X·Y) i j|)`,
again with the absolute value of the raw product. -/
theorem t_function_formulas {m k n : ℕ} (x : Matrix (Fin m) (Fin k) ℝ)
    (y : Matrix (Fin k) (Fin n) ℝ) (i j : Fin m) (i' : Fin m) (j' : Fin n) :
    t_function1 x i j =
      rowDot x i j / Real.sqrt (rowSumSq x i + rowSumSq x j - |rowDot x i j|)
    ∧ t_function2 x y i' j' =
      mulEntry x y i' j' /
        Real.sqrt (colSumSq y j' + rowSumSq x i' - |mulEntry x y i' j'|) := by
  constructor
  · show (x * xᵀ) i j / Real.sqrt (rowSumSq x j + rowSumSq x i - |(x * xᵀ) i j|) = _
    have hdot : (x * xᵀ) i j = rowDot x i j := by
      simp [Matrix.mul_apply, rowDot, Matrix.transpose_apply]
    rw [hdot, add_comm (rowSumSq x j)]
  · show (x * y) i' j' /
        Real.sqrt (colSumSq y j' + rowSumSq x i' - |(x * y) i' j'|) = _
    have hdot : (x * y) i' j' = mulEntry x y i' j' := by
      simp [Matrix.mul_apply, mulEntry]
    rw [hdot]

/-- Iteration state of `panda_loop` (panda.py lines 220–248): the three
evidence matrices (mutated in place in the source, passed explicitly
here), the step counter and the last computed convergence metric. -/
structure LoopState (t g : ℕ) where
  correlation_matrix : Matrix (Fin g) (Fin g) ℝ
  motif_matrix : Matrix (Fin t) (Fin g) ℝ
  ppi_matrix : Matrix (Fin t) (Fin t) ℝ
  step : ℕ
  hamming : ℝ

/-- The damping factor, `alpha = 0.1` (panda.py line 224). -/
def panda_alpha : ℝ := 0.1

/-- The convergence threshold `0.001` of `while hamming > 0.001`
(panda.py line 225). -/
def panda_threshold : ℝ := 0.001

/-- `W = 0.5 * (t_function(ppi_matrix, motif_matrix) +
t_function(motif_matrix, correlation_matrix))` (panda.py line 227). -/
def pandaW {t g : ℕ} (s : LoopState t g) : Matrix (Fin t) (Fin g) ℝ :=
  fun i j => 0.5 * (t_function2 s.ppi_matrix s.motif_matrix i j
    + t_function2 s.motif_matrix s.correlation_matrix i j)

/-- One pass of the `while` body of `panda_loop` (panda.py lines 226–248):
compute `W`, compute `hamming = np.abs(motif_matrix - W).mean()`, apply the
in-place damped motif update `motif_matrix *= (1 - alpha)` then
`motif_matrix += alpha * W`, and only when the fresh `hamming` still
exceeds the threshold also blend the regularized one-argument similarity
transforms into `ppi_matrix` and `correlation_matrix` (using the already
updated motif matrix and the pre-increment `step`, as the source does);
finally increment `step`. -/
def pandaIter {t g : ℕ} (s : LoopState t g) : LoopState t g :=
  let W := pandaW s
  let hamming := matMean (fun i j => |s.motif_matrix i j - W i j|)
  let motif1 : Matrix (Fin t) (Fin g) ℝ :=
    fun i j => s.motif_matrix i j * (1 - panda_alpha)
  let motif2 : Matrix (Fin t) (Fin g) ℝ :=
    fun i j => motif1 i j + panda_alpha * W i j
  if hamming > panda_threshold then
    let ppi := t_function1 motif2
    let ppi' := update_diagonal_r ppi t panda_alpha s.step
    let ppi_matrix' : Matrix (Fin t) (Fin t) ℝ :=
      fun i j => s.ppi_matrix i j * (1 - panda_alpha) + panda_alpha * ppi' i j
    let motif := t_function1 motif2ᵀ
    let motif' := update_diagonal_r motif g panda_alpha s.step
    let correlation' : Matrix (Fin g) (Fin g) ℝ :=
      fun i j => s.correlation_matrix i j * (1 - panda_alpha) + panda_alpha * motif' i j
    ⟨correlation', motif2, ppi_matrix', s.step + 1, hamming⟩
  else
    ⟨s.correlation_matrix, motif2, s.ppi_matrix, s.step + 1, hamming⟩

/-- Fuel-indexed runner for the `while hamming > 0.001` loop: returns
`some` final state when the test fails within the given fuel, `none`
otherwise (the source loop has no iteration cap). -/
def pandaRunAux {t g : ℕ} : ℕ → LoopState t g → Option (LoopState t g)
  | 0, s => if s.hamming > panda_threshold then none else some s
  | fuel + 1, s =>
      if s.hamming > panda_threshold then pandaRunAux fuel (pandaIter s)
      else some s

/-- Entry state of `panda_loop` (panda.py lines 222–224):
`step = 0`, `hamming = 1`. -/
def initState {t g : ℕ} (c : Matrix (Fin g) (Fin g) ℝ)
    (m : Matrix (Fin t) (Fin g) ℝ) (p : Matrix (Fin t) (Fin t) ℝ) :
    LoopState t g := ⟨c, m, p, 0, 1⟩

/-- `panda_loop` as a fuel-indexed function of the three matrices. -/
def panda_loop {t g : ℕ} (fuel : ℕ) (c : Matrix (Fin g) (Fin g) ℝ)
    (m : Matrix (Fin t) (Fin g) ℝ) (p : Matrix (Fin t) (Fin t) ℝ) :
    Option (LoopState t g) :=
  pandaRunAux fuel (initState c m p)

/-- C6: `update_diagonal` rewrites exactly the diagonal: entry `(i,i)`
becomes (NaN-ignoring standard deviation of row `i` with the diagonal entry
first replaced by NaN) `* num * exp (2*alpha*step)` — NaN-propagating — and
every off-diagonal entry `(i,j)`, `i ≠ j`, is returned unchanged. -/
theorem update_diagonal_spec {n : ℕ} (M : Matrix (Fin n) (Fin n) (Option ℝ))
    (num : ℕ) (alpha : ℝ) (step : ℕ) (i j : Fin n) :
    update_diagonal M num alpha step i j =
      if i = j then
        (nanstd (fun l => if i = l then none else M i l)).map
          (fun sd => sd * (num : ℝ) * Real.exp (2 * alpha * (step : ℕ)))
      else M i j := by
  by_cases h : i = j
  · subst h
    simp [update_diagonal]
  · simp [update_diagonal, h]

lemma pandaIter_hamming_eq {t g : ℕ} (s : LoopState t g) :
    (pandaIter s).hamming
      = matMean (fun i j => |s.motif_matrix i j - pandaW s i j|) := by
  unfold pandaIter
  by_cases h : matMean (fun i j => |s.motif_matrix i j - pandaW s i j|)
    > panda_threshold
  · simp only [h, if_pos]
  · simp only [h, if_neg, not_false_iff]

lemma pandaIter_motif_eq {t g : ℕ} (s : LoopState t g) :
    (pandaIter s).motif_matrix
      = fun i j => (1 - panda_alpha) * s.motif_matrix i j
          + panda_alpha * pandaW s i j := by
  unfold pandaIter
  by_cases h : matMean (fun i j => |s.motif_matrix i j - pandaW s i j|)
    > panda_threshold
  · simp only [h, if_pos]
    funext i j
    ring
  · simp only [h, if_neg, not_false_iff]
    funext i j
    ring

/-- C1: each pass of the convergence loop, entering with the current
matrices held in `s`, computes
`W = 0.5 * (T(ppi, motif) + T(motif, coexpression))`, stores as the
convergence metric the mean of `|motif - W|` over all entries of the motif
matrix, and applies the damped update
`motif = (1 - alpha) * motif + alpha * W`; the motif update is performed
unconditionally, in particular also on the pass whose fresh metric
terminates the loop. -/
theorem pandaIter_spec {t g : ℕ} (s : LoopState t g) :
    pandaW s = (fun i j => 0.5 * (t_function2 s.ppi_matrix s.motif_matrix i j
      + t_function2 s.motif_matrix s.correlation_matrix i j))
    ∧ (pandaIter s).hamming
        = matMean (fun i j => |s.motif_matrix i j - pandaW s i j|)
    ∧ (pandaIter s).motif_matrix
        = fun i j => (1 - panda_alpha) * s.motif_matrix i j
            + panda_alpha * pandaW s i j :=
  ⟨rfl, pandaIter_hamming_eq s, pandaIter_motif_eq s⟩

lemma pandaRunAux_of_le {t g : ℕ} (fuel : ℕ) (s : LoopState t g)
    (h : ¬ s.hamming > panda_threshold) : pandaRunAux fuel s = some s := by
  cases fuel <;> simp [pandaRunAux, h]

lemma pandaRunAux_terminates {t g : ℕ} (fuel : ℕ) (s : LoopState t g)
    (s' : LoopState t g) (hs : s.hamming > panda_threshold)
    (h : pandaRunAux fuel s = some s') :
    s'.hamming ≤ panda_threshold
    ∧ ∃ s₀ : LoopState t g, s₀.hamming > panda_threshold ∧ s' = pandaIter s₀ := by
  induction fuel generalizing s with
  | zero => simp [pandaRunAux, hs] at h
  | succ n ih =>
      rw [pandaRunAux, if_pos hs] at h
      by_cases h2 : (pandaIter s).hamming > panda_threshold
      · exact ih (pandaIter s) h2 h
      · rw [pandaRunAux_of_le n _ h2] at h
        refine ⟨?_, s, hs, ?_⟩
        · cases h; exact le_of_not_lt h2
        · cases h; rfl

lemma pandaIter_converged {t g : ℕ} (s : LoopState t g)
    (h : ¬ (pandaIter s).hamming > panda_threshold) :
    (pandaIter s).ppi_matrix = s.ppi_matrix
    ∧ (pandaIter s).correlation_matrix = s.correlation_matrix := by
  rw [pandaIter_hamming_eq] at h
  unfold pandaIter
  rw [if_neg h]
  exact ⟨rfl, rfl⟩

/-- C2: `panda_loop` starts with `step = 0`, `hamming = 1` (a sentinel
strictly above the threshold, forcing at least one iteration),
`alpha = 0.1` and threshold `0.001`, and iterates while
`hamming > 0.001`.  Whenever the loop terminates (here: the fuel-indexed
runner returns a final state), the final freshly computed metric is
`≤ 0.001`, the final state is the image under one loop pass of a state
whose metric still exceeded the threshold, and on that terminating pass
the `ppi` and `coexpression` matrices were not updated while the motif
matrix still received its damped update. -/
theorem panda_loop_spec {t g : ℕ} (c : Matrix (Fin g) (Fin g) ℝ)
    (m : Matrix (Fin t) (Fin g) ℝ) (p : Matrix (Fin t) (Fin t) ℝ)
    (fuel : ℕ) (s' : LoopState t g)
    (h : panda_loop fuel c m p = some s') :
    (initState c m p).step = 0 ∧ (initState c m p).hamming = 1
    ∧ panda_alpha = 0.1 ∧ panda_threshold = 0.001
    ∧ (initState c m p).hamming > panda_threshold
    ∧ s'.hamming ≤ panda_threshold
    ∧ ∃ s₀ : LoopState t g, s₀.hamming > panda_threshold
        ∧ s' = pandaIter s₀
        ∧ s'.ppi_matrix = s₀.ppi_matrix
        ∧ s'.correlation_matrix = s₀.correlation_matrix
        ∧ s'.motif_matrix = fun i j =>
            (1 - panda_alpha) * s₀.motif_matrix i j
              + panda_alpha * pandaW s₀ i j := by
  have hsent : (initState c m p).hamming > panda_threshold := by
    show (1 : ℝ) > panda_threshold
    norm_num [panda_threshold]
  obtain ⟨hle, s₀, hs₀, heq⟩ := pandaRunAux_terminates fuel _ s' hsent h
  refine ⟨rfl, rfl, rfl, rfl, hsent, hle, s₀, hs₀, heq, ?_, ?_, ?_⟩
  · rw [heq]
    exact (pandaIter_converged s₀ (by rw [← heq]; exact not_lt.mpr hle)).1
  · rw [heq]
    exact (pandaIter_converged s₀ (by rw [← heq]; exact not_lt.mpr hle)).2
  · rw [heq]
    exact pandaIter_motif_eq s₀

/-- The all-ones 1×1 matrix, a concrete input on which the loop converges
after a single pass. -/
def onesMat : Matrix (Fin 1) (Fin 1) ℝ := fun _ _ => 1

lemma t_function2_ones (i j : Fin 1) : t_function2 onesMat onesMat i j = 1 := by
  simp [t_function2, onesMat, Matrix.mul_apply, colSumSq, rowSumSq,
    Fin.sum_univ_one]

lemma pandaW_ones (i j : Fin 1) :
    pandaW (initState onesMat onesMat onesMat) i j = 1 := by
  simp [pandaW, initState, t_function2_ones]
  norm_num

lemma pandaIter_ones_hamming :
    (pandaIter (initState onesMat onesMat onesMat)).hamming = 0 := by
  rw [pandaIter_hamming_eq]
  unfold matMean
  have h : ∀ i j : Fin 1,
      |(initState onesMat onesMat onesMat).motif_matrix i j
        - pandaW (initState onesMat onesMat onesMat) i j| = 0 := by
    intro i j
    rw [pandaW_ones]
    simp [initState, onesMat]
  simp [Fin.sum_univ_one, h 0 0]

/-- Witness for `panda_loop_spec`: on the 1×1 all-ones input the loop
returns a final state after one unit of fuel, and the theorem applies. -/
theorem panda_loop_spec_witness :
    panda_loop 1 onesMat onesMat onesMat
      = some (pandaIter (initState onesMat onesMat onesMat))
    ∧ (pandaIter (initState onesMat onesMat onesMat)).hamming
        ≤ panda_threshold
    ∧ ∃ s₀ : LoopState 1 1, s₀.hamming > panda_threshold
        ∧ pandaIter (initState onesMat onesMat onesMat) = pandaIter s₀ := by
  have h1 : (initState onesMat onesMat onesMat).hamming > panda_threshold := by
    show (1 : ℝ) > panda_threshold
    norm_num [panda_threshold]
  have h2 : ¬ (pandaIter (initState onesMat onesMat onesMat)).hamming
      > panda_threshold := by
    rw [pandaIter_ones_hamming]
    norm_num [panda_threshold]
  have hrun : panda_loop 1 onesMat onesMat onesMat
      = some (pandaIter (initState onesMat onesMat onesMat)) := by
    unfold panda_loop
    rw [pandaRunAux, if_pos h1, pandaRunAux, if_neg h2]
  have hmain := panda_loop_spec onesMat onesMat onesMat 1 _ hrun
  exact ⟨hrun, hmain.2.2.2.2.2.1,
    (hmain.2.2.2.2.2.2).imp (fun s₀ hh => ⟨hh.1, hh.2.1⟩)⟩

/-- Mean of column `j` of `x`. -/
def colMean {r c : ℕ} (x : Matrix (Fin r) (Fin c) ℝ) (j : Fin c) : ℝ :=
  (∑ i, x i j) / (r : ℝ)

/-- Population variance of column `j` of `x`. -/
def colVar {r c : ℕ} (x : Matrix (Fin r) (Fin c) ℝ) (j : Fin c) : ℝ :=
  (∑ i, (x i j - colMean x j) ^ 2) / (r : ℝ)

/-- Mean of row `i` of `x`. -/
def rowMean {r c : ℕ} (x : Matrix (Fin r) (Fin c) ℝ) (i : Fin r) : ℝ :=
  (∑ j, x i j) / (c : ℝ)

/-- Population variance of row `i` of `x`. -/
def rowVar {r c : ℕ} (x : Matrix (Fin r) (Fin c) ℝ) (i : Fin r) : ℝ :=
  (∑ j, (x i j - rowMean x i) ^ 2) / (c : ℝ)

/-- Mean of all entries of `x`. -/
def totMean {r c : ℕ} (x : Matrix (Fin r) (Fin c) ℝ) : ℝ :=
  (∑ i, ∑ j, x i j) / ((r * c : ℕ) : ℝ)

/-- Population variance of all entries of `x`. -/
def totVar {r c : ℕ} (x : Matrix (Fin r) (Fin c) ℝ) : ℝ :=
  (∑ i, ∑ j, (x i j - totMean x) ^ 2) / ((r * c : ℕ) : ℝ)

/-- `zscore(x, axis=0)` (scipy, population std): column-wise z-score.
A zero-variance column makes every entry of that column `0/0`, i.e. NaN,
embedded here as `none`. -/
def zscoreCol {r c : ℕ} (x : Matrix (Fin r) (Fin c) ℝ) :
    Matrix (Fin r) (Fin c) (Option ℝ) :=
  fun i j => if colVar x j = 0 then none
    else some ((x i j - colMean x j) / Real.sqrt (colVar x j))

/-- `zscore(x, axis=1)` (scipy, population std): row-wise z-score, NaN on
zero-variance rows. -/
def zscoreRow {r c : ℕ} (x : Matrix (Fin r) (Fin c) ℝ) :
    Matrix (Fin r) (Fin c) (Option ℝ) :=
  fun i j => if rowVar x i = 0 then none
    else some ((x i j - rowMean x i) / Real.sqrt (rowVar x i))

/-- `(x - np.mean(x)) / np.std(x)` (panda.py line 191): one global z-score
of the whole matrix; NaN everywhere when the whole matrix has zero
variance (every numerator is then `0`, so each entry is `0/0`). -/
def zscoreTotal {r c : ℕ} (x : Matrix (Fin r) (Fin c) ℝ) :
    Matrix (Fin r) (Fin c) (Option ℝ) :=
  fun i j => if totVar x = 0 then none
    else some ((x i j - totMean x) / Real.sqrt (totVar x))

/-- NaN-propagating addition on NaN-extended reals. -/
def oadd (a b : Option ℝ) : Option ℝ :=
  a.bind fun av => b.map fun bv => av + bv

/-- NaN-propagating division by `math.sqrt(2)`. -/
def odivSqrtTwo (a : Option ℝ) : Option ℝ :=
  a.map fun v => v / Real.sqrt 2

/-- NaN-propagating multiplication by `2`. -/
def otwoMul (a : Option ℝ) : Option ℝ :=
  a.map fun v => 2 * v

/-- Shared body of `_normalize_network` (panda.py lines 183–197), with the
branch-dependent `norm_row` passed as a parameter.  The source assigns the
base formula `(norm_col + norm_row)/sqrt(2)` and then overwrites, in
order, the `nan_col` cells, the `nan_row` cells, and the
`nan_col & nan_row` cells; the net per-cell value is rendered here by the
corresponding `if` cascade (most specific case first). -/
def normalizeWith {r c : ℕ} (x : Matrix (Fin r) (Fin c) ℝ)
    (norm_row : Matrix (Fin r) (Fin c) (Option ℝ)) :
    Matrix (Fin r) (Fin c) (Option ℝ) :=
  let norm_col := zscoreCol x
  let norm_total := zscoreTotal x
  fun i j =>
    if norm_col i j = none ∧ norm_row i j = none then
      odivSqrtTwo (otwoMul (norm_col i j))
    else if norm_row i j = none then
      odivSqrtTwo (oadd (norm_col i j) (norm_total i j))
    else if norm_col i j = none then
      odivSqrtTwo (oadd (norm_row i j) (norm_total i j))
    else
      odivSqrtTwo (oadd (norm_col i j) (norm_row i j))

/-- `_normalize_network` on a square input (the `x.shape[0] == x.shape[1]`
branch of panda.py line 185): `norm_row = norm_col.T`. -/
def _normalize_network_square {n : ℕ} (x : Matrix (Fin n) (Fin n) ℝ) :
    Matrix (Fin n) (Fin n) (Option ℝ) :=
  normalizeWith x (zscoreCol x)ᵀ

/-- `_normalize_network` on a non-square input (the `else` branch of
panda.py line 187): `norm_row = zscore(x, axis=1)`. -/
def _normalize_network_rect {r c : ℕ} (x : Matrix (Fin r) (Fin c) ℝ) :
    Matrix (Fin r) (Fin c) (Option ℝ) :=
  normalizeWith x (zscoreRow x)

lemma zscoreCol_of_ne {r c : ℕ} (x : Matrix (Fin r) (Fin c) ℝ)
    (i : Fin r) (j : Fin c) (h : colVar x j ≠ 0) :
    zscoreCol x i j = some ((x i j - colMean x j) / Real.sqrt (colVar x j)) := by
  simp [zscoreCol, h]

lemma zscoreRow_of_ne {r c : ℕ} (x : Matrix (Fin r) (Fin c) ℝ)
    (i : Fin r) (j : Fin c) (h : rowVar x i ≠ 0) :
    zscoreRow x i j = some ((x i j - rowMean x i) / Real.sqrt (rowVar x i)) := by
  simp [zscoreRow, h]

/-- C4 (amended): on an input with no zero-variance row and no
zero-variance column, `_normalize_network` returns
`(colZ + rowZ) / sqrt 2`, where for a non-square input `rowZ` is the
per-row z-score, while for a square input `rowZ` is the transpose of the
per-column z-score matrix (the source reuses `norm_col.T` for every square
input, which agrees with per-row z-scores only on special inputs such as
symmetric ones). -/
theorem normalize_network_nondegenerate {r c n : ℕ}
    (x : Matrix (Fin r) (Fin c) ℝ) (y : Matrix (Fin n) (Fin n) ℝ)
    (hc : ∀ j, colVar x j ≠ 0) (hr : ∀ i, rowVar x i ≠ 0)
    (hy : ∀ j, colVar y j ≠ 0) :
    (∀ i j, _normalize_network_rect x i j =
      some (((x i j - colMean x j) / Real.sqrt (colVar x j)
        + (x i j - rowMean x i) / Real.sqrt (rowVar x i)) / Real.sqrt 2))
    ∧ (∀ i j, _normalize_network_square y i j =
      some (((y i j - colMean y j) / Real.sqrt (colVar y j)
        + (y j i - colMean y i) / Real.sqrt (colVar y i)) / Real.sqrt 2)) := by
  constructor
  · intro i j
    unfold _normalize_network_rect normalizeWith
    rw [zscoreCol_of_ne x i j (hc j), zscoreRow_of_ne x i j (hr i)]
    simp [oadd, odivSqrtTwo]
  · intro i j
    unfold _normalize_network_square normalizeWith
    have h1 := zscoreCol_of_ne y i j (hy j)
    have h2 := zscoreCol_of_ne y j i (hy i)
    simp only [Matrix.transpose_apply]
    rw [h1, h2]
    simp [oadd, odivSqrtTwo]

/-- Concrete non-degenerate matrices for the normalizer witnesses. -/
def wRect : Matrix (Fin 2) (Fin 3) ℝ := !![0, 2, 1; 1, 0, 3]

/-- A square non-symmetric matrix with all row and column variances
nonzero. -/
def wSquare : Matrix (Fin 2) (Fin 2) ℝ := !![0, 3; 1, 2]

lemma wRect_colVar : ∀ j, colVar wRect j ≠ 0 := by
  intro j
  fin_cases j <;>
    norm_num [colVar, colMean, wRect, Fin.sum_univ_two, Fin.sum_univ_three]

lemma wRect_rowVar : ∀ i, rowVar wRect i ≠ 0 := by
  intro i
  fin_cases i <;>
    norm_num [rowVar, rowMean, wRect, Fin.sum_univ_two, Fin.sum_univ_three]

lemma wSquare_colVar : ∀ j, colVar wSquare j ≠ 0 := by
  intro j
  fin_cases j <;>
    norm_num [colVar, colMean, wSquare, Fin.sum_univ_two]

/-- Witness for `normalize_network_nondegenerate` at concrete 2×3 and 2×2
inputs. -/
theorem normalize_network_nondegenerate_witness :
    (∀ j, colVar wRect j ≠ 0) ∧ (∀ i, rowVar wRect i ≠ 0)
    ∧ (∀ j, colVar wSquare j ≠ 0)
    ∧ _normalize_network_rect wRect 0 0 =
      some (((wRect 0 0 - colMean wRect 0) / Real.sqrt (colVar wRect 0)
        + (wRect 0 0 - rowMean wRect 0) / Real.sqrt (rowVar wRect 0))
          / Real.sqrt 2)
    ∧ _normalize_network_square wSquare 1 0 =
      some (((wSquare 1 0 - colMean wSquare 0) / Real.sqrt (colVar wSquare 0)
        + (wSquare 0 1 - colMean wSquare 1) / Real.sqrt (colVar wSquare 1))
          / Real.sqrt 2) :=
  ⟨wRect_colVar, wRect_rowVar, wSquare_colVar,
    (normalize_network_nondegenerate wRect wSquare wRect_colVar wRect_rowVar
      wSquare_colVar).1 0 0,
    (normalize_network_nondegenerate wRect wSquare wRect_colVar wRect_rowVar
      wSquare_colVar).2 1 0⟩

lemma sqrt_quarter : Real.sqrt (1 / 4 : ℝ) = 1 / 2 := by
  rw [show (1 / 4 : ℝ) = (1 / 2) ^ 2 by norm_num,
    Real.sqrt_sq (by norm_num : (0:ℝ) ≤ 1 / 2)]

/-- Counterexample to C4 as stated: on the square non-symmetric input
`!![0,3;1,2]` — which has no zero-variance row or column — the column
z-score at `(1,0)` is `1` and the row z-score is `-1`, so the claimed
formula `(colZ + rowZ)/sqrt 2` gives `0`, but `_normalize_network`
(square branch, `norm_row = norm_col.T`) returns `2 / sqrt 2 ≠ 0`. -/
theorem normalize_network_counterexample :
    (∀ j, colVar wSquare j ≠ 0) ∧ (∀ i, rowVar wSquare i ≠ 0)
    ∧ zscoreCol wSquare 1 0 = some 1
    ∧ zscoreRow wSquare 1 0 = some (-1)
    ∧ _normalize_network_square wSquare 1 0 = some (2 / Real.sqrt 2)
    ∧ some ((2:ℝ) / Real.sqrt 2) ≠ some (((1:ℝ) + -1) / Real.sqrt 2) := by
  have hrow : ∀ i, rowVar wSquare i ≠ 0 := by
    intro i
    fin_cases i <;>
      norm_num [rowVar, rowMean, wSquare, Fin.sum_univ_two]
  have hc0 : colVar wSquare 0 = 1 / 4 := by
    norm_num [colVar, colMean, wSquare, Fin.sum_univ_two]
  have hc1 : colVar wSquare 1 = 1 / 4 := by
    norm_num [colVar, colMean, wSquare, Fin.sum_univ_two]
  have hr1 : rowVar wSquare 1 = 1 / 4 := by
    norm_num [rowVar, rowMean, wSquare, Fin.sum_univ_two]
  have hm0 : colMean wSquare 0 = 1 / 2 := by
    norm_num [colMean, wSquare, Fin.sum_univ_two]
  have hm1 : colMean wSquare 1 = 5 / 2 := by
    norm_num [colMean, wSquare, Fin.sum_univ_two]
  have hzc : zscoreCol wSquare 1 0 = some 1 := by
    rw [zscoreCol_of_ne wSquare 1 0 (wSquare_colVar 0), hc0, hm0, sqrt_quarter]
    norm_num [wSquare]
  have hzc' : zscoreCol wSquare 0 1 = some 1 := by
    rw [zscoreCol_of_ne wSquare 0 1 (wSquare_colVar 1), hc1, hm1, sqrt_quarter]
    norm_num [wSquare]
  have hzr : zscoreRow wSquare 1 0 = some (-1) := by
    rw [zscoreRow_of_ne wSquare 1 0 (hrow 1), hr1, sqrt_quarter]
    norm_num [rowMean, wSquare, Fin.sum_univ_two]
  refine ⟨wSquare_colVar, hrow, hzc, hzr, ?_, ?_⟩
  · unfold _normalize_network_square normalizeWith
    simp only [Matrix.transpose_apply]
    rw [hzc, hzc']
    simp [oadd, odivSqrtTwo]
    norm_num
  · have h2 : Real.sqrt 2 ≠ 0 :=
      ne_of_gt (Real.sqrt_pos.mpr (by norm_num))
    intro hcontra
    rw [Option.some_inj, show ((1:ℝ) + -1) = 0 by ring, zero_div] at hcontra
    exact (div_ne_zero (by norm_num) h2) hcontra

/-- C5 (amended): in `_normalize_network`, at cells where `colZ` is NaN
but `rowZ` is defined the output is `(rowZ + totalZ)/sqrt 2`; where `rowZ`
is NaN but `colZ` is defined it is `(colZ + totalZ)/sqrt 2`; where both
are NaN the output is the literal `2 * colZ / sqrt 2`, which — `colZ`
being NaN at those very cells — remains NaN (not `0`).  Stated over the
shared body `normalizeWith` with an arbitrary `norm_row`, which
specializes to both the square branch (`norm_row = norm_col.T`) and the
non-square branch (`norm_row = zscore(x, axis=1)`). -/
theorem normalize_network_nan_cases {r c n : ℕ}
    (x : Matrix (Fin r) (Fin c) ℝ) (nr : Matrix (Fin r) (Fin c) (Option ℝ))
    (y : Matrix (Fin n) (Fin n) ℝ) (i : Fin r) (j : Fin c) :
    (zscoreCol x i j = none → nr i j ≠ none →
      normalizeWith x nr i j = odivSqrtTwo (oadd (nr i j) (zscoreTotal x i j)))
    ∧ (zscoreCol x i j ≠ none → nr i j = none →
      normalizeWith x nr i j
        = odivSqrtTwo (oadd (zscoreCol x i j) (zscoreTotal x i j)))
    ∧ (zscoreCol x i j = none → nr i j = none →
      normalizeWith x nr i j = odivSqrtTwo (otwoMul (zscoreCol x i j))
      ∧ normalizeWith x nr i j = none)
    ∧ _normalize_network_square y = normalizeWith y (zscoreCol y)ᵀ
    ∧ _normalize_network_rect x = normalizeWith x (zscoreRow x) := by
  refine ⟨?_, ?_, ?_, rfl, rfl⟩
  · intro h1 h2
    unfold normalizeWith
    rw [if_neg (fun hand => h2 hand.2), if_neg h2, if_pos h1]
  · intro h1 h2
    unfold normalizeWith
    rw [if_neg (by simp [h1]), if_pos h2]
  · intro h1 h2
    unfold normalizeWith
    rw [if_pos ⟨h1, h2⟩]
    refine ⟨rfl, ?_⟩
    simp [h1, otwoMul, odivSqrtTwo]

lemma zscoreCol_one_entry : zscoreCol !![(0:ℝ)] 0 0 = none := by
  simp [zscoreCol, colVar, colMean, Fin.sum_univ_one]

lemma zscoreCol_two_one : zscoreCol !![(0:ℝ); 1] 0 0 ≠ none := by
  rw [zscoreCol_of_ne]
  · simp
  · norm_num [colVar, colMean, Fin.sum_univ_two]

/-- Witness for `normalize_network_nan_cases` at concrete degenerate and
non-degenerate cells. -/
theorem normalize_network_nan_cases_witness :
    (zscoreCol !![(0:ℝ)] 0 0 = none
      ∧ normalizeWith !![(0:ℝ)] (fun _ _ => some 0) 0 0
          = odivSqrtTwo (oadd (some 0) (zscoreTotal !![(0:ℝ)] 0 0)))
    ∧ (zscoreCol !![(0:ℝ); 1] 0 0 ≠ none
      ∧ normalizeWith !![(0:ℝ); 1] (fun _ _ => none) 0 0
          = odivSqrtTwo (oadd (zscoreCol !![(0:ℝ); 1] 0 0)
              (zscoreTotal !![(0:ℝ); 1] 0 0)))
    ∧ normalizeWith !![(0:ℝ)] (fun _ _ => none) 0 0 = none := by
  refine ⟨⟨zscoreCol_one_entry, ?_⟩, ⟨zscoreCol_two_one, ?_⟩, ?_⟩
  · exact (normalize_network_nan_cases !![(0:ℝ)] (fun _ _ => some 0)
      !![(0:ℝ)] 0 0).1 zscoreCol_one_entry (by simp)
  · exact (normalize_network_nan_cases !![(0:ℝ); 1] (fun _ _ => none)
      !![(0:ℝ)] 0 0).2.1 zscoreCol_two_one rfl
  · exact (((normalize_network_nan_cases !![(0:ℝ)] (fun _ _ => none)
      !![(0:ℝ)] 0 0).2.2.1) zscoreCol_one_entry rfl).2

/-- Counterexample to C5 as stated: at a cell where both `colZ` and
`rowZ` are NaN (the 1×1 matrix `[1]`, whose only column has zero
variance), `_normalize_network` returns NaN, not `0`: the literal
`2*colZ/sqrt 2` does not "reduce to 0" there. -/
theorem normalize_both_nan_counterexample :
    zscoreCol !![(1:ℝ)] 0 0 = none
    ∧ (zscoreCol !![(1:ℝ)])ᵀ 0 0 = none
    ∧ _normalize_network_square !![(1:ℝ)] 0 0 = none
    ∧ (none : Option ℝ) ≠ some 0 := by
  have h : zscoreCol !![(1:ℝ)] 0 0 = none := by
    simp [zscoreCol, colVar, colMean, Fin.sum_univ_one]
  refine ⟨h, by simpa using h, ?_, by simp⟩
  unfold _normalize_network_square normalizeWith
  simp only [Matrix.transpose_apply]
  rw [if_pos ⟨h, h⟩, h]
  simp [otwoMul, odivSqrtTwo]

lemma update_diagonal_diag {n : ℕ} (M : Matrix (Fin n) (Fin n) (Option ℝ))
    (num : ℕ) (alpha : ℝ) (step : ℕ) (i : Fin n) :
    update_diagonal M num alpha step i i
      = (nanstd (fun l => if i = l then none else M i l)).map
          (fun sd => sd * (num : ℝ) * Real.exp (2 * alpha * (step : ℕ))) := by
  simp [update_diagonal]

/-- C9 (amended): for every square input matrix in which each row has at
least one non-NaN entry *off the diagonal*, `update_diagonal` leaves no
NaN on the diagonal.  (The off-diagonal qualification is forced: the
function first overwrites the diagonal with NaN, so a row whose only
non-NaN entry is its diagonal one still yields a NaN row std.) -/
theorem update_diagonal_no_nan {n : ℕ} (M : Matrix (Fin n) (Fin n) (Option ℝ))
    (num : ℕ) (alpha : ℝ) (step : ℕ)
    (h : ∀ i, ∃ j, j ≠ i ∧ M i j ≠ none) (i : Fin n) :
    update_diagonal M num alpha step i i ≠ none := by
  rw [update_diagonal_diag]
  obtain ⟨j, hji, hj⟩ := h i
  have hv : ((fun l => if i = l then none else M i l) j).isSome := by
    have hij : i ≠ j := fun he => hji he.symm
    show (if i = j then none else M i j).isSome
    rw [if_neg hij]
    exact Option.isSome_iff_ne_none.mpr hj
  have hcard : (Finset.univ.filter
      (fun l => ((fun l => if i = l then none else M i l) l).isSome)).card ≠ 0 :=
    Finset.card_ne_zero_of_mem (Finset.mem_filter.mpr ⟨Finset.mem_univ j, hv⟩)
  unfold nanstd
  rw [if_neg hcard]
  simp

/-- A 2×2 matrix whose rows each contain a non-NaN off-diagonal entry. -/
def wNoNaN : Matrix (Fin 2) (Fin 2) (Option ℝ) :=
  !![some 1, some 2; some 3, some 4]

/-- Witness for `update_diagonal_no_nan` on a concrete 2×2 matrix. -/
theorem update_diagonal_no_nan_witness :
    (∀ i : Fin 2, ∃ j, j ≠ i ∧ wNoNaN i j ≠ none)
    ∧ update_diagonal wNoNaN 1 panda_alpha 0 0 0 ≠ none
    ∧ update_diagonal wNoNaN 1 panda_alpha 0 1 1 ≠ none := by
  have h : ∀ i : Fin 2, ∃ j, j ≠ i ∧ wNoNaN i j ≠ none := by
    intro i
    fin_cases i
    · exact ⟨1, by decide, by simp [wNoNaN]⟩
    · exact ⟨0, by decide, by simp [wNoNaN]⟩
  exact ⟨h, update_diagonal_no_nan wNoNaN 1 panda_alpha 0 h 0,
    update_diagonal_no_nan wNoNaN 1 panda_alpha 0 h 1⟩

/-- A 2×2 matrix with no all-NaN row, but whose first row has NaN as its
only off-diagonal entry. -/
def wRowNaN : Matrix (Fin 2) (Fin 2) (Option ℝ) :=
  !![some 1, none; some 1, some 1]

/-- Counterexample to C9 as stated: `wRowNaN` has no all-NaN row (every
row contains `some 1`), yet `update_diagonal` leaves NaN at the `(0,0)`
diagonal entry, because after the diagonal is overwritten with NaN the
whole first row is NaN and `np.nanstd` of an all-NaN row is NaN. -/
theorem update_diagonal_nan_counterexample :
    (∀ i : Fin 2, ¬ ∀ j, wRowNaN i j = none)
    ∧ update_diagonal wRowNaN 1 panda_alpha 0 0 0 = none := by
  constructor
  · intro i hall
    have h0 := hall 0
    fin_cases i <;> simp [wRowNaN] at h0
  · rw [update_diagonal_diag]
    have hemp : (Finset.univ.filter
        (fun l => ((fun l => if (0 : Fin 2) = l then none else wRowNaN 0 l) l).isSome)) = ∅ := by
      rw [Finset.filter_eq_empty_iff]
      intro l _
      fin_cases l <;> simp [wRowNaN]
    unfold nanstd
    rw [if_pos (by rw [hemp]; rfl)]
    rfl

/-- `np.isnan(M).any()`: the matrix has at least one NaN entry. -/
def anyNaN {r c : ℕ} (M : Matrix (Fin r) (Fin c) (Option ℝ)) : Prop :=
  ∃ i j, M i j = none

instance anyNaN.dec {r c : ℕ} (M : Matrix (Fin r) (Fin c) (Option ℝ)) :
    Decidable (anyNaN M) :=
  decidable_of_iff (∃ i j, M i j = none) Iff.rfl

/-- The correlation-matrix NaN fixup of `__init__` (panda.py lines 78–80):
if `np.isnan(correlation_matrix).any()`, then `np.fill_diagonal(..., 1)`
followed by `np.nan_to_num(...)` (every remaining NaN becomes `0`);
otherwise the matrix is left untouched. -/
def fix_correlation {n : ℕ} (M : Matrix (Fin n) (Fin n) (Option ℝ)) :
    Matrix (Fin n) (Fin n) (Option ℝ) :=
  if anyNaN M then (fun i j => if i = j then some 1 else some ((M i j).getD 0))
  else M

/-- C10: if the coexpression matrix contains any NaN entry, the
constructor sets every diagonal entry to `1` and replaces every remaining
NaN with `0`; if it contains no NaN it is left unchanged at this stage. -/
theorem fix_correlation_spec {n : ℕ} (M : Matrix (Fin n) (Fin n) (Option ℝ))
    (i j : Fin n) :
    (anyNaN M → fix_correlation M i j
      = if i = j then some 1 else some ((M i j).getD 0))
    ∧ (¬ anyNaN M → fix_correlation M i j = M i j) := by
  constructor
  · intro h
    unfold fix_correlation
    rw [if_pos h]
  · intro h
    unfold fix_correlation
    rw [if_neg h]

/-- A correlation matrix with NaN entries off the diagonal. -/
def wCorrNaN : Matrix (Fin 2) (Fin 2) (Option ℝ) :=
  !![some 1, none; none, some 1]

/-- A correlation matrix without NaN entries. -/
def wCorrClean : Matrix (Fin 2) (Fin 2) (Option ℝ) :=
  !![some 1, some 0; some 0, some 1]

/-- Witness for `fix_correlation_spec`: a matrix with a NaN gets it
replaced by `0`, a NaN-free matrix is returned unchanged. -/
theorem fix_correlation_spec_witness :
    anyNaN wCorrNaN ∧ fix_correlation wCorrNaN 0 1 = some 0
    ∧ ¬ anyNaN wCorrClean
    ∧ fix_correlation wCorrClean 0 1 = wCorrClean 0 1 := by
  have h1 : anyNaN wCorrNaN := ⟨0, 1, by simp [wCorrNaN]⟩
  have h2 : ¬ anyNaN wCorrClean := by
    rintro ⟨i, j, hij⟩
    fin_cases i <;> fin_cases j <;> simp [wCorrClean] at hij
  refine ⟨h1, ?_, h2, (fix_correlation_spec wCorrClean 0 1).2 h2⟩
  rw [(fix_correlation_spec wCorrNaN 0 1).1 h1]
  simp [wCorrNaN]

/-- The reconciled-mode (`save_memory=False`) export of `panda_loop`
(panda.py lines 252–257).  The source builds, in lockstep,
`tfs = np.tile(unique_tfs, (num_genes, 1)).flatten()` (the TF list cycled
once per gene), `genes = np.repeat(gene_names, num_tfs)` (each gene
repeated `num_tfs` times) and the column-major (`order='F'`) flattenings
of `motif_matrix_unnormalized` and of the final `motif_matrix`; record
`k` therefore reads row `k % num_tfs` and column `k / num_tfs` of each
matrix.  That is exactly the nested iteration "for each gene, for each
TF" rendered here. -/
def export_panda_results {T G : ℕ} {α β : Type} (unique_tfs : Fin T → α)
    (gene_names : Fin G → β) (Mun Mfin : Matrix (Fin T) (Fin G) ℝ) :
    List (α × β × ℝ × ℝ) :=
  (List.finRange G).flatMap fun g => (List.finRange T).map fun t =>
    (unique_tfs t, gene_names g, Mun t g, Mfin t g)

/-- The (regulator index, target index) sequence underlying the export. -/
def exportPairs (T G : ℕ) : List (Fin T × Fin G) :=
  (List.finRange G).flatMap fun g => (List.finRange T).map fun t => (t, g)

lemma get?_flatMap_const_length {A B : Type} (l : List A) (f : A → List B)
    (T : ℕ) (hf : ∀ a, (f a).length = T) :
    ∀ (n k : ℕ), ∀ hn : n < l.length, k < T →
      (l.flatMap f).get? (n * T + k) = (f (l.get ⟨n, hn⟩)).get? k := by
  induction l with
  | nil => intro n k hn; exact absurd hn (by simp)
  | cons a tl ih =>
      intro n k hn hk
      cases n with
      | zero =>
          simp only [List.flatMap_cons, List.get]
          rw [List.get?_append (by rw [hf a]; simpa using hk)]
          simp
      | succ m =>
          simp only [List.flatMap_cons, List.get]
          rw [List.get?_append_right (by rw [hf a]; nlinarith)]
          rw [hf a, show (m + 1) * T + k - T = m * T + k by ring_nf; omega]
          exact ih m k (by simpa using hn) hk

lemma length_flatMap_const {A B : Type} (l : List A) (f : A → List B) (T : ℕ)
    (hf : ∀ a, (f a).length = T) : (l.flatMap f).length = l.length * T := by
  induction l with
  | nil => simp
  | cons a tl ih =>
      simp only [List.flatMap_cons, List.length_append, hf, ih, List.length_cons]
      ring

lemma finRange_get? {n : ℕ} (t : Fin n) : (List.finRange n).get? t.val = some t := by
  rw [List.get?_eq_get (by simpa using t.2)]
  simp

lemma exportPairs_nodup (T G : ℕ) : (exportPairs T G).Nodup := by
  unfold exportPairs
  rw [List.nodup_flatMap]
  constructor
  · intro g _
    exact (List.nodup_finRange T).map
      (fun a b h => congrArg Prod.fst h)
  · refine (List.nodup_finRange G).imp ?_
    intro g g' hgg' p hp hp'
    obtain ⟨t1, _, h1⟩ := List.mem_map.mp hp
    obtain ⟨t2, _, h2⟩ := List.mem_map.mp hp'
    exact hgg' (((Prod.mk.injEq _ _ _ _).mp (h1.trans h2.symm)).2)

lemma exportPairs_mem {T G : ℕ} (t : Fin T) (g : Fin G) :
    (t, g) ∈ exportPairs T G :=
  List.mem_flatMap.mpr ⟨g, List.mem_finRange g,
    List.mem_map.mpr ⟨t, List.mem_finRange t, rfl⟩⟩

/-- C7 (amended): in reconciled (`save_memory=False`) mode the exported
edge list has exactly `num_tfs * num_genes` records, every
(regulator, target) pair appears exactly once, the list is the
column-major flattening of the regulator×target matrix — record
`g * num_tfs + t` pairs TF `t` with gene `g` — and each record carries,
as prior weight, the matching entry of the pre-loop *unnormalized* motif
matrix (`motif_matrix_unnormalized`, not the normalized one), and, as
inferred weight, the matching entry of the final motif matrix. -/
theorem export_panda_results_spec {T G : ℕ} {α β : Type}
    (unique_tfs : Fin T → α) (gene_names : Fin G → β)
    (Mun Mfin : Matrix (Fin T) (Fin G) ℝ) :
    (export_panda_results unique_tfs gene_names Mun Mfin).length = T * G
    ∧ (∀ (g : Fin G) (t : Fin T),
        (export_panda_results unique_tfs gene_names Mun Mfin).get?
            (g.val * T + t.val)
          = some (unique_tfs t, gene_names g, Mun t g, Mfin t g))
    ∧ (exportPairs T G).Nodup
    ∧ (∀ (t : Fin T) (g : Fin G), (t, g) ∈ exportPairs T G)
    ∧ export_panda_results unique_tfs gene_names Mun Mfin
        = (exportPairs T G).map
            (fun p => (unique_tfs p.1, gene_names p.2, Mun p.1 p.2, Mfin p.1 p.2)) := by
  refine ⟨?_, ?_, exportPairs_nodup T G, fun t g => exportPairs_mem t g, ?_⟩
  · unfold export_panda_results
    rw [length_flatMap_const _ _ T (fun a => by simp), List.length_finRange,
      mul_comm]
  · intro g t
    rw [export_panda_results,
      get?_flatMap_const_length _ _ T (fun a => by simp) g.val t.val
        (by simpa using g.2) t.2]
    rw [List.get?_map]
    simp [finRange_get?]
  · unfold export_panda_results exportPairs
    rw [List.map_flatMap]
    simp only [List.map_map]
    rfl

lemma zscoreCol_wSquare_00 : zscoreCol wSquare 0 0 = some (-1) := by
  have hc0 : colVar wSquare 0 = 1 / 4 := by
    norm_num [colVar, colMean, wSquare, Fin.sum_univ_two]
  have hm0 : colMean wSquare 0 = 1 / 2 := by
    norm_num [colMean, wSquare, Fin.sum_univ_two]
  rw [zscoreCol_of_ne wSquare 0 0 (wSquare_colVar 0), hc0, hm0, sqrt_quarter]
  norm_num [wSquare]

/-- Counterexample to C7 as stated: the exported prior weight is the
*unnormalized* motif value, not the normalized one.  On the prior matrix
`!![0,3;1,2]` the first exported record carries prior weight `0`
(= the raw entry), while the pre-loop *normalized* motif matrix has
`-2/sqrt 2 ≠ 0` at that position. -/
theorem export_prior_counterexample :
    (export_panda_results (fun t : Fin 2 => t) (fun g : Fin 2 => g)
        wSquare wSquare).get? 0 = some (0, 0, 0, 0)
    ∧ _normalize_network_square wSquare 0 0 = some ((-2) / Real.sqrt 2)
    ∧ ((-2) / Real.sqrt 2 : ℝ) ≠ 0 := by
  refine ⟨?_, ?_, ?_⟩
  · have h := get?_flatMap_const_length (List.finRange 2)
      (fun g => (List.finRange 2).map fun t =>
        ((fun t : Fin 2 => t) t, (fun g : Fin 2 => g) g,
          wSquare t g, wSquare t g)) 2 (fun a => by simp) 0 0
      (by simp) (by norm_num)
    simp only [Nat.zero_mul, Nat.add_zero] at h
    rw [export_panda_results, h, List.get?_map]
    have h0 : (List.finRange 2).get? 0 = some (0 : Fin 2) := by decide
    rw [h0]
    norm_num [wSquare]
  · unfold _normalize_network_square normalizeWith
    simp only [Matrix.transpose_apply]
    rw [zscoreCol_wSquare_00]
    simp [oadd, odivSqrtTwo]
    norm_num
  · exact div_ne_zero (by norm_num)
      (ne_of_gt (Real.sqrt_pos.mpr (by norm_num)))

/-- Entrywise symmetry of a square matrix (over any entry type, so that it
also applies to NaN-extended matrices). -/
def symmM {n : ℕ} {γ : Type} (M : Matrix (Fin n) (Fin n) γ) : Prop :=
  ∀ i j, M i j = M j i

/-- Phase 1 of the PPI-matrix construction (panda.py lines 112–113):
`ppi_matrix.ravel()[ravel_multi_index((idx_tf1, idx_tf2), ...)] = ppi_data[2]`,
i.e. for each data row `(tf1, tf2, w)` in order, write `M[tf1, tf2] = w`
(later rows overwrite earlier ones at a duplicated position). -/
def setF {n : ℕ} (M : Matrix (Fin n) (Fin n) ℝ)
    (edges : List (Fin n × Fin n × ℝ)) : Matrix (Fin n) (Fin n) ℝ :=
  edges.foldl (fun A e => fun a b => if a = e.1 ∧ b = e.2.1 then e.2.2 else A a b) M

/-- Phase 2 of the PPI-matrix construction (panda.py lines 114–115): for
each data row `(tf1, tf2, w)` in order, write `M[tf2, tf1] = w`. -/
def setB {n : ℕ} (M : Matrix (Fin n) (Fin n) ℝ)
    (edges : List (Fin n × Fin n × ℝ)) : Matrix (Fin n) (Fin n) ℝ :=
  edges.foldl (fun A e => fun a b => if a = e.2.1 ∧ b = e.1 then e.2.2 else A a b) M

/-- The PPI matrix built by `__init__` (panda.py lines 109–115): start
from the identity, apply all forward writes, then all mirrored writes. -/
def build_ppi {n : ℕ} (edges : List (Fin n × Fin n × ℝ)) :
    Matrix (Fin n) (Fin n) ℝ :=
  setB (setF (1 : Matrix (Fin n) (Fin n) ℝ) edges) edges

/-- No two rows of the PPI edge list assign different weights to the same
(ordered or reversed) TF pair. -/
def PpiConsistent {n : ℕ} (edges : List (Fin n × Fin n × ℝ)) : Prop :=
  ∀ e ∈ edges, ∀ e' ∈ edges,
    ((e.1 = e'.1 ∧ e.2.1 = e'.2.1) ∨ (e.1 = e'.2.1 ∧ e.2.1 = e'.1)) →
      e.2.2 = e'.2.2

lemma find?_append {γ : Type} (l₁ l₂ : List γ) (p : γ → Bool) :
    (l₁ ++ l₂).find? p = ((l₁.find? p).orElse fun _ => l₂.find? p) := by
  induction l₁ with
  | nil => simp
  | cons a tl ih =>
      by_cases h : p a
      · simp [List.find?_cons_of_pos _ h, Option.orElse]
      · simp [List.find?_cons_of_neg _ h, ih]

lemma setF_apply {n : ℕ} (edges : List (Fin n × Fin n × ℝ)) :
    ∀ (M : Matrix (Fin n) (Fin n) ℝ) (a b : Fin n),
      setF M edges a b =
        ((edges.reverse.find? fun e => decide (a = e.1 ∧ b = e.2.1)).map
          (fun e => e.2.2)).getD (M a b) := by
  induction edges with
  | nil => intro M a b; simp [setF]
  | cons e tl ih =>
      intro M a b
      have hstep : setF M (e :: tl) a b
          = setF (fun a' b' => if a' = e.1 ∧ b' = e.2.1 then e.2.2 else M a' b')
              tl a b := rfl
      rw [hstep, ih, List.reverse_cons, find?_append]
      cases hfind : tl.reverse.find? fun e' => decide (a = e'.1 ∧ b = e'.2.1) with
      | some v => simp [Option.orElse]
      | none =>
          by_cases hc : a = e.1 ∧ b = e.2.1
          · simp [Option.orElse, List.find?_cons, hc]
          · simp [Option.orElse, List.find?_cons, hc]

lemma setB_apply {n : ℕ} (edges : List (Fin n × Fin n × ℝ)) :
    ∀ (M : Matrix (Fin n) (Fin n) ℝ) (a b : Fin n),
      setB M edges a b =
        ((edges.reverse.find? fun e => decide (a = e.2.1 ∧ b = e.1)).map
          (fun e => e.2.2)).getD (M a b) := by
  induction edges with
  | nil => intro M a b; simp [setB]
  | cons e tl ih =>
      intro M a b
      have hstep : setB M (e :: tl) a b
          = setB (fun a' b' => if a' = e.2.1 ∧ b' = e.1 then e.2.2 else M a' b')
              tl a b := rfl
      rw [hstep, ih, List.reverse_cons, find?_append]
      cases hfind : tl.reverse.find? fun e' => decide (a = e'.2.1 ∧ b = e'.1) with
      | some v => simp [Option.orElse]
      | none =>
          by_cases hc : a = e.2.1 ∧ b = e.1
          · simp [Option.orElse, List.find?_cons, hc]
          · simp [Option.orElse, List.find?_cons, hc]

lemma build_ppi_symm {n : ℕ} (edges : List (Fin n × Fin n × ℝ))
    (h : PpiConsistent edges) : symmM (build_ppi edges) := by
  intro a b
  unfold build_ppi
  rw [setB_apply, setB_apply, setF_apply, setF_apply]
  have hpred1 : (fun e : Fin n × Fin n × ℝ => decide (b = e.2.1 ∧ a = e.1))
      = fun e => decide (a = e.1 ∧ b = e.2.1) :=
    funext fun e => decide_eq_decide.mpr ⟨fun ⟨u, v⟩ => ⟨v, u⟩, fun ⟨u, v⟩ => ⟨v, u⟩⟩
  have hpred2 : (fun e : Fin n × Fin n × ℝ => decide (b = e.1 ∧ a = e.2.1))
      = fun e => decide (a = e.2.1 ∧ b = e.1) :=
    funext fun e => decide_eq_decide.mpr ⟨fun ⟨u, v⟩ => ⟨v, u⟩, fun ⟨u, v⟩ => ⟨v, u⟩⟩
  rw [hpred1, hpred2]
  have hone : (1 : Matrix (Fin n) (Fin n) ℝ) a b = (1 : Matrix (Fin n) (Fin n) ℝ) b a := by
    simp [Matrix.one_apply, eq_comm]
  rw [hone]
  set X := edges.reverse.find? fun e => decide (a = e.2.1 ∧ b = e.1) with hX
  set Y := edges.reverse.find? fun e => decide (a = e.1 ∧ b = e.2.1) with hY
  cases hXv : X with
  | none =>
      cases hYv : Y with
      | none => simp
      | some ey => simp
  | some ex =>
      cases hYv : Y with
      | none => simp
      | some ey =>
          have hmx : ex ∈ edges := by
            have := List.mem_of_find?_eq_some (hX ▸ hXv)
            exact List.mem_reverse.mp this
          have hmy : ey ∈ edges := by
            have := List.mem_of_find?_eq_some (hY ▸ hYv)
            exact List.mem_reverse.mp this
          have hpx : a = ex.2.1 ∧ b = ex.1 := by
            have := List.find?_some (hX ▸ hXv)
            exact of_decide_eq_true this
          have hpy : a = ey.1 ∧ b = ey.2.1 := by
            have := List.find?_some (hY ▸ hYv)
            exact of_decide_eq_true this
          have hw : ex.2.2 = ey.2.2 := by
            refine h ex hmx ey hmy (Or.inr ⟨?_, ?_⟩)
            · rw [← hpx.2, hpy.2]
            · rw [← hpx.1, hpy.1]
          simp [hw]

/-- Mean of row `i` of the expression matrix (over the samples). -/
def sampleMean {g s : ℕ} (X : Matrix (Fin g) (Fin s) ℝ) (i : Fin g) : ℝ :=
  (∑ k, X i k) / (s : ℝ)

/-- Sample covariance of rows `i` and `j` (ddof = 1, as `np.cov` inside
`np.corrcoef` uses; the normalization cancels in the correlation). -/
def sampleCov {g s : ℕ} (X : Matrix (Fin g) (Fin s) ℝ) (i j : Fin g) : ℝ :=
  (∑ k, (X i k - sampleMean X i) * (X j k - sampleMean X j)) / ((s : ℝ) - 1)

/-- `np.corrcoef(expression_data)` (panda.py line 77), idealized over `ℝ`:
covariance divided by the product of the row standard deviations, then
clipped to `[-1, 1]` as NumPy does.  (The NaN such a quotient produces for
a zero-variance row in IEEE arithmetic is handled separately by
`fix_correlation`; symmetry is unaffected.) -/
def corrcoef {g s : ℕ} (X : Matrix (Fin g) (Fin s) ℝ) :
    Matrix (Fin g) (Fin g) ℝ :=
  fun i j => max (-1) (min 1 (sampleCov X i j /
    (Real.sqrt (sampleCov X i i) * Real.sqrt (sampleCov X j j))))

lemma sampleCov_symm {g s : ℕ} (X : Matrix (Fin g) (Fin s) ℝ) (i j : Fin g) :
    sampleCov X i j = sampleCov X j i := by
  unfold sampleCov
  congr 1
  exact Finset.sum_congr rfl fun k _ => mul_comm _ _

lemma corrcoef_symm {g s : ℕ} (X : Matrix (Fin g) (Fin s) ℝ) :
    symmM (corrcoef X) := by
  intro i j
  unfold corrcoef
  rw [sampleCov_symm X i j, mul_comm]

lemma fix_correlation_symm {n : ℕ} (C : Matrix (Fin n) (Fin n) (Option ℝ))
    (hC : symmM C) : symmM (fix_correlation C) := by
  intro i j
  unfold fix_correlation
  by_cases h : anyNaN C
  · rw [if_pos h]
    by_cases hij : i = j
    · subst hij; rfl
    · rw [if_neg hij, if_neg (fun he => hij he.symm), hC i j]
  · rw [if_neg h]
    exact hC i j

lemma oadd_comm (a b : Option ℝ) : oadd a b = oadd b a := by
  cases a <;> cases b <;> simp [oadd, add_comm]

lemma zscoreTotal_symm {n : ℕ} (x : Matrix (Fin n) (Fin n) ℝ)
    (hx : symmM x) (i j : Fin n) : zscoreTotal x i j = zscoreTotal x j i := by
  unfold zscoreTotal
  rw [hx i j]

lemma normalize_square_symm {n : ℕ} (x : Matrix (Fin n) (Fin n) ℝ)
    (hx : symmM x) : symmM (_normalize_network_square x) := by
  intro i j
  unfold _normalize_network_square normalizeWith
  simp only [Matrix.transpose_apply]
  by_cases hA : zscoreCol x i j = none <;> by_cases hB : zscoreCol x j i = none
  · rw [if_pos ⟨hA, hB⟩, if_pos ⟨hB, hA⟩, hA, hB]
  · rw [if_neg (fun hand => hB hand.2), if_neg hB, if_pos hA,
      if_neg (fun hand => hB hand.1), if_pos hA,
      zscoreTotal_symm x hx i j]
  · rw [if_neg (fun hand => hA hand.1), if_pos hB,
      if_neg (fun hand => hA hand.2), if_neg hA, if_pos hB,
      zscoreTotal_symm x hx i j]
  · rw [if_neg (fun hand => hA hand.1), if_neg hB, if_neg hA,
      if_neg (fun hand => hB hand.1), if_neg hA, if_neg hB,
      oadd_comm]

lemma t_function1_symm {m k : ℕ} (x : Matrix (Fin m) (Fin k) ℝ) :
    symmM (t_function1 x) := by
  intro i j
  unfold t_function1
  have ha : (x * xᵀ) i j = (x * xᵀ) j i := by
    simp only [Matrix.mul_apply, Matrix.transpose_apply]
    exact Finset.sum_congr rfl fun l _ => mul_comm _ _
  rw [ha, add_comm (rowSumSq x j)]

lemma update_diagonal_r_symm {n : ℕ} (M : Matrix (Fin n) (Fin n) ℝ)
    (hM : symmM M) (num : ℕ) (alpha : ℝ) (step : ℕ) :
    symmM (update_diagonal_r M num alpha step) := by
  intro i j
  by_cases h : i = j
  · subst h; rfl
  · unfold update_diagonal_r update_diagonal
    have hji : ¬ j = i := fun he => h he.symm
    simp only [if_neg h, if_neg hji]
    rw [hM i j]

lemma pandaIter_symm {t g : ℕ} (s : LoopState t g)
    (hp : symmM s.ppi_matrix) (hc : symmM s.correlation_matrix) :
    symmM (pandaIter s).ppi_matrix ∧ symmM (pandaIter s).correlation_matrix := by
  unfold pandaIter
  by_cases h : matMean (fun i j => |s.motif_matrix i j - pandaW s i j|)
    > panda_threshold
  · rw [if_pos h]
    constructor
    · intro i j
      show s.ppi_matrix i j * (1 - panda_alpha) + panda_alpha * _ = _
      rw [hp i j,
        update_diagonal_r_symm _ (t_function1_symm _) t panda_alpha s.step i j]
    · intro i j
      show s.correlation_matrix i j * (1 - panda_alpha) + panda_alpha * _ = _
      rw [hc i j,
        update_diagonal_r_symm _ (t_function1_symm _) g panda_alpha s.step i j]
  · rw [if_neg h]
    exact ⟨hp, hc⟩

lemma pandaRunAux_symm {t g : ℕ} (fuel : ℕ) (s : LoopState t g)
    (s' : LoopState t g) (h : pandaRunAux fuel s = some s')
    (hp : symmM s.ppi_matrix) (hc : symmM s.correlation_matrix) :
    symmM s'.ppi_matrix ∧ symmM s'.correlation_matrix := by
  induction fuel generalizing s with
  | zero =>
      rw [pandaRunAux] at h
      by_cases hh : s.hamming > panda_threshold
      · rw [if_pos hh] at h; exact absurd h (by simp)
      · rw [if_neg hh] at h; cases h; exact ⟨hp, hc⟩
  | succ m ih =>
      rw [pandaRunAux] at h
      by_cases hh : s.hamming > panda_threshold
      · rw [if_pos hh] at h
        exact ih (pandaIter s) h (pandaIter_symm s hp hc).1 (pandaIter_symm s hp hc).2
      · rw [if_neg hh] at h; cases h; exact ⟨hp, hc⟩

/-- C8 (amended): the `ppi` and `coexpression` matrices are symmetric at
every stage, *provided* the PPI edge list is `PpiConsistent` (assigns
equal weights to duplicate/reversed TF pairs — without this the two-phase
indexed-write construction of `__init__` is not symmetric): the
constructed PPI matrix is symmetric, `np.corrcoef` output is symmetric,
the NaN fixup and the normalizer preserve symmetry of square symmetric
inputs, and every pass of `panda_loop` (damped blending of the
diagonal-regularized one-argument `t_function`) preserves symmetry of both
matrices, hence any final state of the loop has them symmetric. -/
theorem ppi_coexpression_symmetric {n t g gg ss nn : ℕ}
    (edges : List (Fin n × Fin n × ℝ)) (hE : PpiConsistent edges)
    (X : Matrix (Fin gg) (Fin ss) ℝ)
    (C : Matrix (Fin nn) (Fin nn) (Option ℝ)) (hC : symmM C)
    (x : Matrix (Fin nn) (Fin nn) ℝ) (hx : symmM x)
    (st : LoopState t g) (hp : symmM st.ppi_matrix)
    (hc : symmM st.correlation_matrix)
    (fuel : ℕ) (s' : LoopState t g) (hrun : pandaRunAux fuel st = some s') :
    symmM (build_ppi edges)
    ∧ symmM (corrcoef X)
    ∧ symmM (fix_correlation C)
    ∧ symmM (_normalize_network_square x)
    ∧ symmM (pandaIter st).ppi_matrix
    ∧ symmM (pandaIter st).correlation_matrix
    ∧ symmM s'.ppi_matrix
    ∧ symmM s'.correlation_matrix :=
  ⟨build_ppi_symm edges hE, corrcoef_symm X, fix_correlation_symm C hC,
    normalize_square_symm x hx, (pandaIter_symm st hp hc).1,
    (pandaIter_symm st hp hc).2,
    (pandaRunAux_symm fuel st s' hrun hp hc).1,
    (pandaRunAux_symm fuel st s' hrun hp hc).2⟩

/-- A one-row PPI edge list (trivially consistent). -/
def wEdges : List (Fin 2 × Fin 2 × ℝ) := [(0, 1, 5)]

/-- A concrete 1×2 expression matrix. -/
def wExpr : Matrix (Fin 1) (Fin 2) ℝ := !![1, 2]

/-- A concrete symmetric 2×2 matrix. -/
def wSymm : Matrix (Fin 2) (Fin 2) ℝ := !![1, 2; 2, 3]

/-- A concrete already-converged loop state with symmetric matrices. -/
def wState : LoopState 1 1 := ⟨onesMat, onesMat, onesMat, 0, 0⟩

/-- Witness for `ppi_coexpression_symmetric` at concrete inputs. -/
theorem ppi_coexpression_symmetric_witness :
    PpiConsistent wEdges ∧ symmM wCorrNaN ∧ symmM wSymm
    ∧ symmM wState.ppi_matrix ∧ symmM wState.correlation_matrix
    ∧ pandaRunAux 1 wState = some wState
    ∧ symmM (build_ppi wEdges) ∧ symmM (corrcoef wExpr)
    ∧ symmM (fix_correlation wCorrNaN)
    ∧ symmM (_normalize_network_square wSymm)
    ∧ symmM (pandaIter wState).ppi_matrix
    ∧ symmM (pandaIter wState).correlation_matrix := by
  have hE : PpiConsistent wEdges := by
    intro e he e' he' _
    rw [wEdges, List.mem_singleton] at he he'
    subst he; subst he'; rfl
  have hC : symmM wCorrNaN := by
    intro i j; fin_cases i <;> fin_cases j <;> rfl
  have hx : symmM wSymm := by
    intro i j; fin_cases i <;> fin_cases j <;> rfl
  have hp : symmM wState.ppi_matrix := by
    intro i j; fin_cases i <;> fin_cases j <;> rfl
  have hh : ¬ wState.hamming > panda_threshold := by
    show ¬ (0 : ℝ) > panda_threshold
    norm_num [panda_threshold]
  have hrun : pandaRunAux 1 wState = some wState := by
    rw [pandaRunAux, if_neg hh]
  have hmain := ppi_coexpression_symmetric wEdges hE wExpr wCorrNaN hC
    wSymm hx wState hp hp 1 wState hrun
  exact ⟨hE, hC, hx, hp, hp, hrun, hmain.1, hmain.2.1, hmain.2.2.1,
    hmain.2.2.2.1, hmain.2.2.2.2.1, hmain.2.2.2.2.2.1⟩

/-- A PPI edge list mentioning the same unordered TF pair twice with
different weights. -/
def cEdges : List (Fin 2 × Fin 2 × ℝ) := [(0, 1, 5), (1, 0, 7)]

/-- Counterexample to C8 as stated: on the edge list
`[(tf0, tf1, 5), (tf1, tf0, 7)]` the constructed PPI matrix is *not*
symmetric — the forward-write pass runs entirely before the mirror-write
pass, so `M[0,1] = 7` (mirror write of the second row) while
`M[1,0] = 5` (mirror write of the first row). -/
theorem build_ppi_asymmetric_counterexample :
    build_ppi cEdges 0 1 = 7 ∧ build_ppi cEdges 1 0 = 5
    ∧ ¬ symmM (build_ppi cEdges) := by
  have hrev : cEdges.reverse = [((1 : Fin 2), (0 : Fin 2), (7 : ℝ)), (0, 1, 5)] := by
    rw [cEdges]
    rfl
  have h1 : build_ppi cEdges 0 1 = 7 := by
    rw [build_ppi, setB_apply, hrev,
      List.find?_cons_of_pos _ (by decide)]
    simp
  have h2 : build_ppi cEdges 1 0 = 5 := by
    rw [build_ppi, setB_apply, hrev,
      List.find?_cons_of_neg _ (by decide),
      List.find?_cons_of_pos _ (by decide)]
    simp
  refine ⟨h1, h2, fun hs => ?_⟩
  have := hs 0 1
  rw [h1, h2] at this
  norm_num at this

end
